import Mathlib

/-!
Verification of the borealis package-management frontend (Python 2 source)
against its natural-language specification.

The development shallowly embeds the relevant parts of the source:

* `borealis/objects.py`  — `Version`, `Dependency`, `PackageMetadata.depends`
  normalization;
* `borealis/backends/__init__.py` — the capability bitmask and
  `PackageManagementBackend.get_method`;
* `borealis/backends/aur/backend.py` — `AURBackend.query` and the head of
  `AURBackend.sync`;
* `borealis/backends/pacman/backend.py` — `PacmanProxyBackend.sync`;
* `borealis/core.py` — `Borealis.dispatch`.

Strings are modelled as `List Char`, Python exceptions as `Option`/`Except`,
and the generator-free control flow as plain recursion.
-/

namespace Borealis

/-- Decidable equality for `Except`, used to evaluate the embedded
exception-raising operations on concrete inputs. -/
instance instDecidableEqExcept {ε α : Type _} [DecidableEq ε]
    [DecidableEq α] : DecidableEq (Except ε α) := fun x y =>
  match x, y with
  | .ok a, .ok b =>
      if h : a = b then .isTrue (h ▸ rfl)
      else .isFalse fun hh => h (Except.ok.inj hh)
  | .error e, .error f =>
      if h : e = f then .isTrue (h ▸ rfl)
      else .isFalse fun hh => h (Except.error.inj hh)
  | .ok _, .error _ => .isFalse fun hh => Except.noConfusion hh
  | .error _, .ok _ => .isFalse fun hh => Except.noConfusion hh

/-! ## Version (`borealis/objects.py`, class `Version`)

`Version.__init__` matches the string against the regex
`(?:([^:]+)(?::))?(?:([^\-]+))(?:(?:-)([\do]+))?` via `re.match` (an
unanchored prefix match with backtracking), then stores

* `epoch   = match.group(1) or 0`,
* `version = match.group(2)`  — note: this OVERWRITES the component list
  that `LooseVersion.parse` had stored in the same attribute,
* `release = 0` if group 3 is the literal `"o"`, else `int(group3)` if
  group 3 matched, else `1`.

Because `LooseVersion.__cmp__` is inherited unchanged and reads
`self.version`, two `Version` objects compare by `cmp` of the raw group-2
substrings (plain byte-wise string comparison).
-/

/-- Characters allowed in the release group of the regex: `[\do]`. -/
def relChar (c : Char) : Bool :=
  c.isDigit || c = 'o'

/-- Decimal digit list of a natural number, most significant first
(the rendering produced by Python's `str`/`format` on an `int`). -/
def natDigits (n : Nat) : List Char :=
  if h : n < 10 then [digitChar n]
  else
    have : n / 10 < n := Nat.div_lt_self (by omega) (by omega)
    natDigits (n / 10) ++ [digitChar (n % 10)]
where
  /-- The character for a single decimal digit. -/
  digitChar : Nat → Char
    | 0 => '0' | 1 => '1' | 2 => '2' | 3 => '3' | 4 => '4'
    | 5 => '5' | 6 => '6' | 7 => '7' | 8 => '8' | _ => '9'

/-- Numeric value of a decimal digit character (`int` on a digit string
folds this left to right). -/
def digitVal (c : Char) : Nat := c.toNat - 48

/-- `int` applied to a non-empty all-digit string. -/
def digitsToNat (l : List Char) : Nat :=
  l.foldl (fun a c => a * 10 + digitVal c) 0

/-- Result of `Version.__init__`: the three attributes it stores.
`epoch = none` models Python's integer default `0` (group 1 absent). -/
structure PyVersion where
  epoch : Option (List Char)
  version : List Char
  release : Nat
  deriving DecidableEq, Repr

/-- The part of the regex after the optional epoch group:
`([^\-]+)(?:-([\do]+))?`.  Returns group 2 and (optionally) group 3.
Group 2 is the longest non-empty `'-'`-free prefix (it fails on an empty
remainder or a leading `'-'`); group 3 is the maximal `[\do]` run right
after the first `'-'`, provided that run is non-empty.  (When the
`dropWhile` below is non-empty its head is necessarily `'-'`.) -/
def versionMain (r : List Char) : Option (List Char × Option (List Char)) :=
  if r.takeWhile (· ≠ '-') = [] then none
  else
    match r.dropWhile (· ≠ '-') with
    | [] => some (r.takeWhile (· ≠ '-'), none)
    | _ :: t =>
        if t.takeWhile relChar = [] then some (r.takeWhile (· ≠ '-'), none)
        else some (r.takeWhile (· ≠ '-'), some (t.takeWhile relChar))

/-- `re.match` of the full version regex.  The epoch group `([^:]+):` can
only split at the first `':'` of the string (the group itself cannot
contain `':'`), i.e. where the `dropWhile` below is non-empty — its head
then is that `':'`; if the remainder after it fails to start a version,
the regex backtracks and retries without the epoch group. -/
def versionMatch (s : List Char) :
    Option (Option (List Char) × List Char × Option (List Char)) :=
  match (match s.dropWhile (· ≠ ':') with
         | [] => none
         | _ :: r =>
             if s.takeWhile (· ≠ ':') = [] then none
             else (versionMain r).map fun (v, g) =>
               (some (s.takeWhile (· ≠ ':')), v, g)) with
  | some x => some x
  | none => (versionMain s).map fun (v, g) => ((none : Option (List Char)), v, g)

/-- `Version.__init__`: `none` models a raised exception (regex mismatch,
or `ValueError` from `int` on a `[\do]` run that is neither all digits
nor the single letter `"o"`). -/
def versionInit (s : List Char) : Option PyVersion :=
  match versionMatch s with
  | none => none
  | some (e, v, g) =>
      match g with
      | none => some ⟨e, v, 1⟩
      | some l =>
          if l = ['o'] then some ⟨e, v, 0⟩
          else if l.all Char.isDigit then some ⟨e, v, digitsToNat l⟩
          else none

/-- `Version.__str__`: `"{}:{}-{}".format(self.epoch, self.version,
self.release)`, where an absent epoch group was stored as the integer 0. -/
def versionStr (v : PyVersion) : List Char :=
  (v.epoch.getD ['0']) ++ ':' :: v.version ++ '-' :: natDigits v.release

/-- Python 2 `cmp` on two byte strings: lexicographic by character code. -/
def pyStrCmp : List Char → List Char → Ordering
  | [], [] => .eq
  | [], _ :: _ => .lt
  | _ :: _, [] => .gt
  | a :: as_, b :: bs =>
      if a < b then .lt
      else if b < a then .gt
      else pyStrCmp as_ bs

/-- `LooseVersion.__cmp__` as inherited by `Version`: `cmp(self.version,
other.version)` — and `self.version` holds the raw group-2 substring. -/
def versionCmp (a b : PyVersion) : Ordering :=
  pyStrCmp a.version b.version

/-- Python `a > b` on two `Version` objects. -/
def versionGtB (a b : PyVersion) : Bool :=
  versionCmp a b = .gt

/-- Python `a == b` on two `Version` objects. -/
def versionEqB (a b : PyVersion) : Bool :=
  versionCmp a b = .eq

/-! ## Dependency (`borealis/objects.py`, class `Dependency`)

A `Dependency` stores a package name, an optional comparison sign and an
optional target `Version`.  `Dependency.from_depstring` computes, for each
operator in the Python list `[">", "<", "=", ">=", "<="]`, the position of
its FIRST occurrence (`str.find`), keeps the hits in that order and splits
the string at the last hit; the constraint suffix is stripped of its
leading run of `<>=` characters to get the sign (Python's `rest[:-0]`
yields `""` when the whole suffix consists of such characters), the sign
is looked up in a fixed five-entry table (`KeyError` otherwise) and the
remainder is parsed as a `Version`. -/

/-- The five comparison signs of `Dependency.signs`. -/
inductive Sign where
  | gt | lt | eq | gte | lte
  deriving DecidableEq, Repr

/-- A `Dependency` object: its `name`, `sign` and `target` attributes.
`sign = none` models Python `None` (as produced by `from_depstring` for an
operator-free string). -/
structure Dep where
  name : List Char
  sign : Option Sign
  target : Option PyVersion
  deriving DecidableEq, Repr

/-- `str.find(sub)`: index of the first occurrence, `none` for Python's
`-1`. -/
def strFind (sub : List Char) : List Char → Option Nat
  | [] => if sub.isPrefixOf [] then some 0 else none
  | c :: t =>
      if sub.isPrefixOf (c :: t) then some 0
      else (strFind sub t).map (· + 1)

/-- A character the sign is assembled from (`str.lstrip("<>=")`). -/
def signChar (c : Char) : Bool :=
  c = '<' || c = '>' || c = '='

/-- The table `dict(zip(ops, ("gt", "lt", "eq", "gte", "lte")))` followed
by `cls.signs.get`; an unlisted sign string raises `KeyError`. -/
def signOfStr (s : List Char) : Option Sign :=
  if s = ['>'] then some .gt
  else if s = ['<'] then some .lt
  else if s = ['='] then some .eq
  else if s = ['>', '='] then some .gte
  else if s = ['<', '='] then some .lte
  else none

/-- The operator list `ops = [">", "<", "=", ">=", "<="]`. -/
def opsList : List (List Char) :=
  [['>'], ['<'], ['='], ['>', '='], ['<', '=']]

/-- `Dependency.from_depstring`; `none` models a raised exception
(`KeyError` on the sign table or a `Version` parse failure). -/
def fromDepstring (s : List Char) : Option Dep :=
  let pos := opsList.filterMap (fun op => strFind op s)
  match pos.getLast? with
  | some p =>
      let name := s.take p
      let rest := s.drop p
      let stripped := rest.dropWhile signChar
      let signStr := if stripped = [] then [] else rest.takeWhile signChar
      match signOfStr signStr, versionInit (rest.drop signStr.length) with
      | some sg, some t => some ⟨name, some sg, some t⟩
      | _, _ => none
  | none => some ⟨s, none, none⟩

/-- `Dependency.is_satisfied_by(package)`, with the candidate package
abstracted to its `name` and `version` attributes.  The Python body is
`package.name == self.name and {GT: operator.gt, ...}[self.sign](...)`:
the name test short-circuits, after which the sign is looked up in a dict
keyed by the five sign values — `self.sign` being `None` (or the target
being `None`) raises instead of returning. -/
def isSatisfiedBy (d : Dep) (pkgName : List Char) (pkgVersion : PyVersion) :
    Except Unit Bool :=
  if pkgName ≠ d.name then .ok false
  else
    match d.sign, d.target with
    | none, _ => .error ()
    | some _, none => .error ()
    | some sg, some t =>
        let c := versionCmp pkgVersion t
        .ok (match sg with
          | .gt => c = .gt
          | .lt => c = .lt
          | .eq => c = .eq
          | .gte => c ≠ .lt
          | .lte => c ≠ .gt)

/-! ## `PackageMetadata.__init__` dependency normalization
(`borealis/objects.py`, lines 139–140)

```python
if not filter(lambda o: isinstance(o, Dependency), self.depends):
    self.depends = map(Dependency, self.depends)
```

In Python 2 both `filter` and `map` are eager.  The guard asks whether NO
element already is a `Dependency`; only then is every element wrapped via
the `Dependency` constructor (whole string as the name, default sign
`EQUALS`, no target). -/

/-- An element of the `depends` list: a raw string or a `Dependency`. -/
inductive DepEntry where
  | raw (s : List Char)
  | dep (d : Dep)
  deriving DecidableEq, Repr

/-- `isinstance(o, Dependency)`. -/
def DepEntry.isDep : DepEntry → Bool
  | .raw _ => false
  | .dep _ => true

/-- The `Dependency(name)` constructor call used by the normalization:
default sign `signs.EQUALS`, no target. -/
def depOfRaw : DepEntry → DepEntry
  | .raw s => .dep ⟨s, some .eq, none⟩
  | .dep d => .dep d

/-- Lines 139–140 of `objects.py`. -/
def normalizeDepends (l : List DepEntry) : List DepEntry :=
  if l.filter DepEntry.isDep = [] then l.map depOfRaw else l

/-! ## Capability registry (`borealis/backends/__init__.py`)

`CAPABS` is a `BitmaskEnumeration` over the four search modifiers and the
five actions.  The enumeration class itself lives in the external `ufl`
library; its semantics is modelled from the spec.

Modelled from the spec: `ufl.core.structures.enum.BitmaskEnumeration` —
"action flags and modifier flags occupy disjoint bit positions; `ALL` is
the OR of every defined flag"; "`test(mask, capability) -> bool` returns
true iff every bit set in `capability` is also set in `mask`". -/

namespace CAPABS

def SEARCH_REGEX : Nat := 1
def SEARCH_PYTHONREGEX : Nat := 2
def SEARCH_DESCRIPTION : Nat := 4
def SEARCH_NAME : Nat := 8
def QUERY : Nat := 16
def REMOVE : Nat := 32
def SYNC : Nat := 64
def SEARCH : Nat := 128
def UPGRADE : Nat := 256

/-- The OR of every defined flag. -/
def ALL : Nat := 511

/-- `CAPABS.test(mask, capability)`. -/
def test (mask capability : Nat) : Bool :=
  mask &&& capability = capability

/-- Every defined capability flag. -/
def flagList : List Nat :=
  [SEARCH_REGEX, SEARCH_PYTHONREGEX, SEARCH_DESCRIPTION, SEARCH_NAME,
   QUERY, REMOVE, SYNC, SEARCH, UPGRADE]

/-- The four search-modifier flags. -/
def modifierList : List Nat :=
  [SEARCH_REGEX, SEARCH_PYTHONREGEX, SEARCH_DESCRIPTION, SEARCH_NAME]

end CAPABS

/-! ## `PackageManagementBackend.get_method`
(`borealis/backends/__init__.py`, lines 81–91)

```python
methods = {CAPABS.QUERY: self.query, CAPABS.REMOVE: self.remove,
           CAPABS.SEARCH: self.search, CAPABS.SYNC: self.sync,
           CAPABS.UPGRADE: self.upgrade}
if CAPABS.test(self.capabs, capability):
    return methods[capability]
```

Falling off the end returns Python `None`.  The dict covers only the five
action flags, so a capability that passes the `test` but is not an action
raises `KeyError`. -/

/-- The five bound operations a backend exposes. -/
inductive BackendMethod where
  | query | remove | search | sync | upgrade
  deriving DecidableEq, Repr

/-- The `methods` dict: `none` models a key the dict does not hold. -/
def methodsDict (capability : Nat) : Option BackendMethod :=
  if capability = CAPABS.QUERY then some .query
  else if capability = CAPABS.REMOVE then some .remove
  else if capability = CAPABS.SEARCH then some .search
  else if capability = CAPABS.SYNC then some .sync
  else if capability = CAPABS.UPGRADE then some .upgrade
  else none

/-- `get_method` for a backend with capability mask `capabs`.
`.error ()` models the `KeyError`; `.ok none` is Python's implicit
`None` for an unsupported capability. -/
def getMethod (capabs capability : Nat) : Except Unit (Option BackendMethod) :=
  if CAPABS.test capabs capability then
    match methodsDict capability with
    | some m => .ok (some m)
    | none => .error ()
  else .ok none

/-- `ALPMBackend.capabs` (`pacman/backend.py`, line 68). -/
def alpmCapabs : Nat :=
  CAPABS.ALL ^^^ (CAPABS.SEARCH_REGEX ||| CAPABS.SYNC |||
                  CAPABS.REMOVE ||| CAPABS.UPGRADE)

/-- `PacmanProxyBackend.capabs` (`pacman/backend.py`, line 166). -/
def pacmanProxyCapabs : Nat :=
  CAPABS.ALL ^^^ CAPABS.SEARCH_PYTHONREGEX

/-- `AURBackend.capabs` (`aur/backend.py`, lines 57–60). -/
def aurCapabs : Nat :=
  CAPABS.ALL ^^^ (CAPABS.SEARCH_REGEX ||| CAPABS.SEARCH_PYTHONREGEX |||
                  CAPABS.REMOVE ||| CAPABS.QUERY)

/-! ## `AURBackend.query` and the head of `AURBackend.sync`
(`borealis/backends/aur/backend.py`, lines 75–81 and 92–95)

```python
def query(self, package=None):
    if not package:
        raise DeferToNextBackend
    data = self.rpc("info", package)
    if data["type"] != "info":
        return
    return ALPMPackage(...)

def sync(self, package):
    package = self.query(package)
    if not package:
        raise DeferToNextBackend
    ...
```

The remote call is abstracted by the `type` field of the JSON response it
returns for the given name. -/

/-- How `AURBackend.query` can come back to its caller. -/
inductive AURQueryOutcome where
  | deferred
  | returnedNone
  | returnedPackage (name : List Char)
  deriving DecidableEq, Repr

/-- `AURBackend.query`: `package = none` is Python `None`, and the empty
string is likewise falsy under `if not package`. -/
def aurQuery (package : Option (List Char)) (respType : List Char) :
    AURQueryOutcome :=
  match package with
  | none => .deferred
  | some p =>
      if p = [] then .deferred
      else if respType ≠ ['i', 'n', 'f', 'o'] then .returnedNone
      else .returnedPackage p

/-- The head of `AURBackend.sync`: the `query` call followed by the
`if not package: raise DeferToNextBackend` guard.  `.ok name` means sync
proceeds with the resolved package. -/
def aurSyncHead (package : Option (List Char)) (respType : List Char) :
    Except Unit (List Char) :=
  match aurQuery package respType with
  | .deferred => .error ()
  | .returnedNone => .error ()
  | .returnedPackage n => .ok n

/-! ## `PacmanProxyBackend.sync`
(`borealis/backends/pacman/backend.py`, lines 209–218)

```python
def sync(self, package):
    if (self.config.deptest_before_sync and
        execute("pacman -T " + package, stdout=PIPE).returncode != 0):
            raise DeferToNextBackend
    proc = self.pass_through(CAPABS.SYNC, ...)
    if "target not found" not in proc.stderr:
        sys.stderr.write(proc.stderr)
    if proc.returncode != 0:
        raise DeferToNextBackend
```

The two external processes are abstracted by their exit codes and the
pacman process additionally by its stderr text. -/

/-- Python's `sub in s` on strings: substring containment. -/
def strContains (hay needle : List Char) : Bool :=
  (strFind needle hay).isSome

/-- The literal `"target not found"`. -/
def targetNotFound : List Char :=
  "target not found".toList

/-- What `PacmanProxyBackend.sync` does, observably: whether it raised
`DeferToNextBackend` or returned, and whether it echoed the pacman
process's stderr. -/
structure PacmanSyncResult where
  deferredB : Bool
  echoedStderr : Bool
  ranPacman : Bool
  deriving DecidableEq, Repr

/-- `PacmanProxyBackend.sync` with `deptest_before_sync` taken from the
config, the deptest exit code, and the pacman process's exit code and
stderr. -/
def pacmanSync (deptestBeforeSync : Bool) (deptestCode : Int)
    (syncCode : Int) (syncStderr : List Char) : PacmanSyncResult :=
  if deptestBeforeSync && deptestCode ≠ 0 then
    ⟨true, false, false⟩
  else
    let echoed := !strContains syncStderr targetNotFound
    if syncCode ≠ 0 then ⟨true, echoed, true⟩
    else ⟨false, echoed, true⟩

/-! ## `Borealis.dispatch` (`borealis/core.py`, lines 111–138)

```python
for index, backend in enumerate(self.backends):
    method = backend.get_method(action)
    if method:
        try:
            if action == CAPABS.SEARCH:
                results.append(method(*arguments))
            else:
                results.extend(map(method, arguments))
        except DeferToNextBackend:
            if index != len(self.backends) - 1:
                next_backend = self.backends[index + 1]
                log.info("deferring to " + next_backend.__class__.__name__)
                continue
    else:
        log.warning("backend {} does not support method {}"...)
```

The loop never breaks: after a successful backend it moves on to the next
one, and a defer raised by the last backend is swallowed.  A backend is
abstracted to its `get_method` outcome for the dispatched action: `none`
when no method is returned, otherwise the invocation behaviour on the
full argument list (`.error ()` = raises `DeferToNextBackend`, `.ok rs` =
the collected results).  Python 2's `map` is eager, so a per-name method
that defers on some name discards that backend's partial results — this
is `List.mapM` in the `Except` monad. -/

/-- A package name on the command line. -/
abbrev PkgName := List Char

/-- A backend as the dispatcher sees it for one action. -/
abbrev BackendCall := List PkgName → Except Unit (List Nat)

/-- The observable events of one `dispatch` run, in order. -/
inductive DispatchEvent where
  | warned (index : Nat)
  | invoked (index : Nat) (arguments : List PkgName)
  | deferredTo (index : Nat)
  | collected (index : Nat) (results : List Nat)
  deriving DecidableEq, Repr

/-- The backend index an event belongs to. -/
def DispatchEvent.index : DispatchEvent → Nat
  | .warned i => i
  | .invoked i _ => i
  | .deferredTo i => i
  | .collected i _ => i

/-- The dispatch loop from backend `i` on, returning the event trace and
the accumulated `results` list. -/
def dispatchFrom (arguments : List PkgName) (i : Nat) :
    List (Option BackendCall) → List DispatchEvent × List Nat
  | [] => ([], [])
  | none :: bs =>
      (.warned i :: (dispatchFrom arguments (i + 1) bs).1,
       (dispatchFrom arguments (i + 1) bs).2)
  | some f :: bs =>
      match f arguments with
      | .ok rs =>
          (.invoked i arguments :: .collected i rs ::
             (dispatchFrom arguments (i + 1) bs).1,
           rs ++ (dispatchFrom arguments (i + 1) bs).2)
      | .error _ =>
          (.invoked i arguments :: .deferredTo i ::
             (dispatchFrom arguments (i + 1) bs).1,
           (dispatchFrom arguments (i + 1) bs).2)

/-- `Borealis.dispatch(action, arguments)` up to the post-processing hook:
the backend loop with its log events and the flattened result list. -/
def dispatch (backends : List (Option BackendCall)) (arguments : List PkgName) :
    List DispatchEvent × List Nat :=
  dispatchFrom arguments 0 backends

/-- The per-name invocation wrapper used for every action but SEARCH:
`results.extend(map(method, arguments))` under the defer handler. -/
def perName (f : PkgName → Except Unit Nat) : BackendCall :=
  fun arguments => arguments.mapM f

/-! ## Claim-side definitions

These two definitions follow the words of the specification (not the
source); they exist so that claims about `Dependency.from_depstring`'s
split position can be stated and compared with the source behaviour. -/

/-- Spec's description of the split point: "the rightmost occurrence in
`s` of any of the operators `>`, `<`, `=`, `>=`, `<=`". -/
def rightmostOpPos (s : List Char) : Option Nat :=
  ((List.range s.length).filter
    (fun i => opsList.any (fun op => op.isPrefixOf (s.drop i)))).getLast?

/-- The split point the source actually uses, described directly: the
leftmost occurrence of `"<="` when `s` contains one, else of `">="`, else
of `"="`, else of `"<"`, else of `">"` (this is `pos[-1]` for
`pos = [p for p in map(s.find, ops) if p != -1]`). -/
def lastOpHit (s : List Char) : Option Nat :=
  if (strFind ['<', '='] s).isSome then strFind ['<', '='] s
  else if (strFind ['>', '='] s).isSome then strFind ['>', '='] s
  else if (strFind ['='] s).isSome then strFind ['='] s
  else if (strFind ['<'] s).isSome then strFind ['<'] s
  else strFind ['>'] s

end Borealis

namespace Borealis

/-! # Theorems -/

/-! ## Helper lemmas -/

/-- The last hit of the Python list comprehension
`[p for p in map(s.find, ops) if p != -1]` is the leftmost occurrence of
the last operator (in the order `>`, `<`, `=`, `>=`, `<=`) that occurs
at all. -/
lemma filterMap_ops_getLast (s : List Char) :
    (opsList.filterMap fun op => strFind op s).getLast? = lastOpHit s := by
  unfold opsList lastOpHit
  cases h1 : strFind ['>'] s <;> cases h2 : strFind ['<'] s <;>
    cases h3 : strFind ['='] s <;> cases h4 : strFind ['>', '='] s <;>
      cases h5 : strFind ['<', '='] s <;>
        simp [List.filterMap_cons, h1, h2, h3, h4, h5]

/-- C2: claimed — `Version` comparison is lexicographic over
(epoch, version, release), so `Version("1:2.0-1") > Version("0:9.9-9")`
(epoch dominates) and `Version("1.0-2") > Version("1.0-1")` (release
breaks ties).  The code evaluates both comparisons to `False`:
`Version.__init__` overwrites `self.version` — the attribute the
inherited `LooseVersion.__cmp__` compares — with the raw version
substring, so comparison is plain string comparison of the version parts
and ignores epoch and release entirely (`"2.0" < "9.9"`, and
`"1.0" == "1.0"` makes `>` false). -/
theorem version_cmp_ignores_epoch_and_release :
    ((versionInit "1:2.0-1".toList).bind fun a =>
      (versionInit "0:9.9-9".toList).map fun b => versionGtB a b) = some false ∧
    ((versionInit "1.0-2".toList).bind fun a =>
      (versionInit "1.0-1".toList).map fun b => versionGtB a b) = some false := by
  decide

/-- C3: claimed — a `Dependency` parsed from a bare name is satisfied by
any package of that name.  The code instead raises: `from_depstring`
leaves `sign = None` for an operator-free string, and once the names
match `is_satisfied_by` looks `self.sign` up in a dict keyed only by the
five sign values, so the matching-name case dies with `KeyError` instead
of returning `True` (the mismatching-name case does return `False`
because `and` short-circuits before the lookup). -/
theorem bare_dependency_satisfaction_raises :
    fromDepstring "foo".toList = some ⟨"foo".toList, none, none⟩ ∧
    isSatisfiedBy ⟨"foo".toList, none, none⟩ "foo".toList
      ⟨none, "1.0".toList, 1⟩ = .error () ∧
    isSatisfiedBy ⟨"foo".toList, none, none⟩ "bar".toList
      ⟨none, "1.0".toList, 1⟩ = .ok false := by
  decide

/-- C4 counterexample: with a package name given and a response whose
`type` is not `"info"`, `AURBackend.query` returns Python `None`
(an absent result) — it does not raise `DeferToNextBackend`, contrary to
the claim. -/
theorem aur_query_type_mismatch_returns_none :
    aurQuery (some "foo".toList) "error".toList = .returnedNone ∧
    aurQuery (some "foo".toList) "error".toList ≠ .deferred := by
  decide

/-- C4 (amended): `AURBackend.query` signals "defer to next backend"
exactly when no package name (or an empty one) is given; with a name
given, a mismatched response `type` yields an absent result (`None`),
and a matching one yields the package.  The defer on "name given but not
found" happens one caller up: `AURBackend.sync` converts the absent
result of its `query` call into `DeferToNextBackend`. -/
theorem aur_query_defer_behaviour (p rt : List Char) :
    aurQuery none rt = .deferred ∧
    aurQuery (some []) rt = .deferred ∧
    (p ≠ [] → rt ≠ "info".toList → aurQuery (some p) rt = .returnedNone) ∧
    (p ≠ [] → rt = "info".toList → aurQuery (some p) rt = .returnedPackage p) ∧
    (rt ≠ "info".toList → aurSyncHead (some p) rt = .error ()) := by
  refine ⟨rfl, rfl, ?_, ?_, ?_⟩
  · intro hp hrt
    simp only [aurQuery, if_neg hp]
    rw [if_pos]
    simpa using hrt
  · intro hp hrt
    simp only [aurQuery, if_neg hp]
    rw [if_neg]
    simpa using hrt
  · intro hrt
    simp only [aurSyncHead, aurQuery]
    rcases eq_or_ne p [] with hp | hp
    · simp [hp]
    · simp only [if_neg hp]
      rw [if_pos]
      simpa using hrt

/-- C4 witness: the amended theorem applied at the concrete name
`"foo"` and response type `"error"`. -/
theorem aur_query_defer_behaviour_witness :
    aurQuery (some "foo".toList) "error".toList = .returnedNone ∧
    aurSyncHead (some "foo".toList) "error".toList = .error () :=
  ⟨(aur_query_defer_behaviour "foo".toList "error".toList).2.2.1
      (by decide) (by decide),
    (aur_query_defer_behaviour "foo".toList "error".toList).2.2.2.2
      (by decide)⟩

/-- C5 counterexample: with dependency pre-testing disabled and a pacman
process that exits 1 with a stderr that does NOT contain
`"target not found"`, `PacmanProxyBackend.sync` still raises
`DeferToNextBackend` (after echoing the stderr) — the nonzero exit is
not surfaced as a backend-level operation failure, contrary to the
claim. -/
theorem pacman_sync_nonzero_exit_always_defers_example :
    pacmanSync false 0 1 "error: boom".toList = ⟨true, true, true⟩ ∧
    strContains "error: boom".toList targetNotFound = false := by
  decide

/-- C5 (amended): whenever `PacmanProxyBackend.sync` reaches the pacman
call (the deptest guard does not fire) and the process exits nonzero,
the operation always signals "defer to next backend"; the
`"target not found"` substring on stderr only controls whether the
process's stderr is echoed to the user (echoed iff the substring is
absent). -/
theorem pacman_sync_nonzero_exit_defers (dt : Bool) (dtc sc : Int)
    (err : List Char) (h1 : dt = false ∨ dtc = 0) (h2 : sc ≠ 0) :
    pacmanSync dt dtc sc err =
      ⟨true, !strContains err targetNotFound, true⟩ := by
  unfold pacmanSync
  rcases h1 with h1 | h1 <;> simp [h1, h2]

/-- C5 witness: the amended theorem applied at deptest disabled, exit
code 1, stderr `"error: boom"`. -/
theorem pacman_sync_nonzero_exit_defers_witness :
    pacmanSync false 0 1 "error: boom".toList = ⟨true, true, true⟩ :=
  (pacman_sync_nonzero_exit_defers false 0 1 "error: boom".toList
    (Or.inl rfl) (by decide)).trans (by decide)

/-- C6 counterexample: `PacmanProxyBackend`'s capability mask contains
`SEARCH_REGEX`, so `test(capabilities(), SEARCH_REGEX)` holds — yet
`get_method(SEARCH_REGEX)` raises `KeyError` (the `methods` dict has
only the five action flags as keys) instead of returning a bound
operation or "not supported". -/
theorem get_method_modifier_crash :
    CAPABS.test pacmanProxyCapabs CAPABS.SEARCH_REGEX = true ∧
    getMethod pacmanProxyCapabs CAPABS.SEARCH_REGEX = .error () := by
  decide

/-- C6 (amended): for each of the three defined backends and every
defined capability flag `c`, `get_method(c)` returns the bound action
operation when `c` is one of the five actions and
`test(capabilities(), c)` holds, returns no method (`None`) whenever the
test fails, and crashes with `KeyError` exactly when `c` is one of the
four search-modifier flags contained in the backend's mask. -/
theorem get_method_spec (m c : Nat)
    (hm : m ∈ [alpmCapabs, pacmanProxyCapabs, aurCapabs])
    (hc : c ∈ CAPABS.flagList) :
    (getMethod m c = .error () ↔
      (c ∈ CAPABS.modifierList ∧ CAPABS.test m c = true)) ∧
    (CAPABS.test m c = false → getMethod m c = .ok none) ∧
    (c ∉ CAPABS.modifierList → CAPABS.test m c = true →
      getMethod m c = .ok (methodsDict c) ∧ (methodsDict c).isSome = true) := by
  fin_cases hm <;> fin_cases hc <;> decide

/-- C6 witness: the amended theorem applied at the `PacmanProxyBackend`
mask and the `SYNC` action flag. -/
theorem get_method_spec_witness :
    getMethod pacmanProxyCapabs CAPABS.SYNC = .ok (methodsDict CAPABS.SYNC) ∧
    (methodsDict CAPABS.SYNC).isSome = true :=
  (get_method_spec pacmanProxyCapabs CAPABS.SYNC (by decide) (by decide)).2.2
    (by decide) (by decide)

/-- C8 counterexample: in `"a>b>c"` the rightmost occurrence of any
operator is the second `'>'` at index 3, so the claim predicts the name
`"a>b"`; but `str.find` returns FIRST occurrences, and the code splits at
index 1, producing the name `"a"`. -/
theorem depstring_split_not_rightmost :
    rightmostOpPos "a>b>c".toList = some 3 ∧
    (fromDepstring "a>b>c".toList).map Dep.name = some "a".toList ∧
    ("a>b>c".toList).take 3 ≠ "a".toList := by
  decide

/-- C8 (amended): `Dependency.from_depstring(s)` splits not at the
rightmost operator occurrence but at the leftmost occurrence of `"<="`
if `s` contains one, else of `">="`, else of `"="`, else of `"<"`, else
of `">"` (this is `pos[-1]` over the first occurrence of each operator in
the order `>`, `<`, `=`, `>=`, `<=`): everything before that position
becomes the name and the remainder is parsed as operator plus target
version (so the result carries a sign and a target); if `s` contains no
operator at all the result is an unconstrained dependency — no sign, no
target — whose name is all of `s`. -/
theorem depstring_split (s : List Char) (d : Dep)
    (h : fromDepstring s = some d) :
    (lastOpHit s = none → d = ⟨s, none, none⟩) ∧
    (∀ p, lastOpHit s = some p →
      d.name = s.take p ∧ d.sign.isSome = true ∧ d.target.isSome = true) := by
  simp only [fromDepstring, filterMap_ops_getLast] at h
  split at h
  · rename_i p' hp
    split at h
    · rename_i sg t hsg ht
      obtain rfl : d = _ := (Option.some.inj h).symm
      refine ⟨fun hc => ?_, fun q hq => ?_⟩
      · rw [hp] at hc; exact absurd hc (by simp)
      · rw [hp] at hq
        obtain rfl : p' = q := Option.some.inj hq
        exact ⟨rfl, rfl, rfl⟩
    · simp at h
  · rename_i hnone
    simp only [Option.some.injEq] at h
    refine ⟨fun _ => h.symm, fun q hq => ?_⟩
    rw [hnone] at hq
    exact absurd hq (by simp)

/-- C8 witness: the amended theorem applied at the dependency string
`"foo>=1.2-1"`, whose split position is 3. -/
theorem depstring_split_witness :
    (⟨"foo".toList, some Sign.gte,
        some ⟨none, "1.2".toList, 1⟩⟩ : Dep).name =
      ("foo>=1.2-1".toList).take 3 :=
  ((depstring_split "foo>=1.2-1".toList
      ⟨"foo".toList, some Sign.gte, some ⟨none, "1.2".toList, 1⟩⟩
      (by rfl)).2 3 (by rfl)).1

/-- Auxiliary: `pyStrCmp` is reflexive. -/
lemma pyStrCmp_self (l : List Char) : pyStrCmp l l = .eq := by
  induction l with
  | nil => rfl
  | cons a t ih => simp [pyStrCmp, ih]

/-- Auxiliary: `takeWhile`/`dropWhile` split a list at a marker that
fails the predicate when everything before it satisfies it. -/
lemma takeWhile_append_marker (p : Char → Bool) (l m : List Char)
    (c : Char) (hl : ∀ x ∈ l, p x = true) (hc : p c = false) :
    (l ++ c :: m).takeWhile p = l ∧ (l ++ c :: m).dropWhile p = c :: m := by
  induction l with
  | nil => simp [List.takeWhile_cons, List.dropWhile_cons, hc]
  | cons a t ih =>
      have ha : p a = true := hl a (by simp)
      obtain ⟨h1, h2⟩ := ih fun x hx => hl x (by simp [hx])
      simp [List.takeWhile_cons, List.dropWhile_cons, ha, h1, h2]

/-- Auxiliary: `takeWhile` keeps a list all of whose elements satisfy
the predicate. -/
lemma takeWhile_of_all (p : Char → Bool) (l : List Char)
    (h : ∀ x ∈ l, p x = true) : l.takeWhile p = l := by
  induction l with
  | nil => rfl
  | cons a t ih =>
      simp [List.takeWhile_cons, h a (by simp),
            ih fun x hx => h x (by simp [hx])]

/-- Auxiliary: the decimal rendering of a natural number is never
empty. -/
lemma natDigits_ne_nil (n : Nat) : natDigits n ≠ [] := by
  rw [natDigits]
  split <;> simp

/-- Auxiliary: every character of the decimal rendering is a digit. -/
lemma natDigits_all_digit (n : Nat) : ∀ c ∈ natDigits n, c.isDigit = true := by
  induction n using Nat.strong_induction_on with
  | _ n ih =>
      have hd : ∀ k, (natDigits.digitChar k).isDigit = true := by
        intro k
        unfold natDigits.digitChar
        split <;> decide
      rw [natDigits]
      split
      · intro c hc
        rw [List.mem_singleton.mp hc]
        exact hd n
      · rename_i hn
        intro c hc
        rcases List.mem_append.mp hc with hm | hm
        · exact ih (n / 10) (Nat.div_lt_self (by omega) (by omega)) c hm
        · rw [List.mem_singleton.mp hm]
          exact hd (n % 10)

/-- Auxiliary: the numeric value of a digit character round-trips. -/
lemma digitVal_digitChar (k : Nat) (h : k < 10) :
    digitVal (natDigits.digitChar k) = k := by
  interval_cases k <;> decide

/-- Auxiliary: `int` over a decimal rendering recovers the number. -/
lemma digitsToNat_natDigits (n : Nat) : digitsToNat (natDigits n) = n := by
  induction n using Nat.strong_induction_on with
  | _ n ih =>
      rw [natDigits]
      split
      · rename_i hn
        simp only [digitsToNat, List.foldl]
        rw [digitVal_digitChar n hn]
        omega
      · rename_i hn
        have hmod : n % 10 < 10 := Nat.mod_lt _ (by omega)
        simp only [digitsToNat, List.foldl_append, List.foldl]
        have := ih (n / 10) (Nat.div_lt_self (by omega) (by omega))
        simp only [digitsToNat] at this
        rw [this, digitVal_digitChar (n % 10) hmod]
        omega

/-- Auxiliary: a successful `versionMain` returns a non-empty group 2
without `'-'`. -/
lemma versionMain_inv (r v : List Char) (g : Option (List Char))
    (h : versionMain r = some (v, g)) :
    v ≠ [] ∧ ∀ c ∈ v, ¬(c = '-') := by
  unfold versionMain at h
  split at h
  · exact absurd h (by simp)
  · rename_i hne
    have hv : v = r.takeWhile (fun c => decide ¬(c = '-')) := by
      split at h
      · exact ((Prod.mk.injEq _ _ _ _).mp (Option.some.inj h)).1.symm
      · split at h <;>
          exact ((Prod.mk.injEq _ _ _ _).mp (Option.some.inj h)).1.symm
    subst hv
    refine ⟨hne, fun c hc => ?_⟩
    simpa using List.mem_takeWhile_imp hc

/-- Auxiliary: a successful `versionMatch` returns a non-empty group 2
without `'-'`, and — when the epoch group matched — a non-empty epoch
without `':'`. -/
lemma versionMatch_inv (s : List Char) (e : Option (List Char))
    (v : List Char) (g : Option (List Char))
    (h : versionMatch s = some (e, v, g)) :
    (v ≠ [] ∧ ∀ c ∈ v, ¬(c = '-')) ∧
    ∀ es, e = some es → es ≠ [] ∧ ∀ c ∈ es, ¬(c = ':') := by
  unfold versionMatch at h
  split at h
  · rename_i x hx
    obtain rfl : x = (e, v, g) := Option.some.inj h
    split at hx
    · exact absurd hx (by simp)
    · rename_i hd r hcons
      split at hx
      · exact absurd hx (by simp)
      · rename_i hee
        cases hm : versionMain r with
        | none => rw [hm] at hx; exact absurd hx (by simp)
        | some pr =>
            rw [hm] at hx
            simp only [Option.map_some', Option.some.injEq,
                       Prod.mk.injEq] at hx
            obtain ⟨he, hv, -⟩ := hx
            obtain ⟨hv1, hv2⟩ := versionMain_inv r pr.1 pr.2 (by rw [hm])
            constructor
            · rw [← hv]; exact ⟨hv1, hv2⟩
            · intro es hes
              rw [← he] at hes
              obtain rfl := Option.some.inj hes
              refine ⟨hee, fun c hc => ?_⟩
              simpa using List.mem_takeWhile_imp hc
  · cases hm : versionMain s with
    | none => rw [hm] at h; exact absurd h (by simp)
    | some pr =>
        rw [hm] at h
        simp only [Option.map_some', Option.some.injEq,
                   Prod.mk.injEq] at h
        obtain ⟨he, hv, -⟩ := h
        obtain ⟨hv1, hv2⟩ := versionMain_inv s pr.1 pr.2 (by rw [hm])
        constructor
        · rw [← hv]; exact ⟨hv1, hv2⟩
        · intro es hes
          rw [← he] at hes
          exact absurd hes (by simp)

/-- Auxiliary: invariants of a successfully constructed `Version`: the
stored version part is non-empty and `'-'`-free, and a matched epoch
group is non-empty and `':'`-free. -/
lemma versionInit_inv (s : List Char) (pv : PyVersion)
    (h : versionInit s = some pv) :
    (pv.version ≠ [] ∧ ∀ c ∈ pv.version, ¬(c = '-')) ∧
    ∀ es, pv.epoch = some es → es ≠ [] ∧ ∀ c ∈ es, ¬(c = ':') := by
  unfold versionInit at h
  split at h
  · exact absurd h (by simp)
  · rename_i e v g heq
    split at h
    · obtain rfl : PyVersion.mk e v 1 = pv := Option.some.inj h
      exact versionMatch_inv s e v _ heq
    · rename_i l
      split at h
      · obtain rfl : PyVersion.mk e v 0 = pv := Option.some.inj h
        exact versionMatch_inv s e v _ heq
      · split at h
        · obtain rfl : PyVersion.mk e v (digitsToNat l) = pv :=
            Option.some.inj h
          exact versionMatch_inv s e v _ heq
        · exact absurd h (by simp)

/-- Auxiliary: `versionMain` on a canonical `version-release` rendering
recovers the two groups. -/
lemma versionMain_render (v digits : List Char) (hv : v ≠ [])
    (hvc : ∀ c ∈ v, ¬(c = '-')) (hd : digits ≠ [])
    (hdr : ∀ c ∈ digits, relChar c = true) :
    versionMain (v ++ '-' :: digits) = some (v, some digits) := by
  have hmark := takeWhile_append_marker (fun c => decide (c ≠ '-')) v digits
    '-' (fun x hx => by simpa using hvc x hx) (by decide)
  unfold versionMain
  rw [hmark.1, hmark.2, if_neg hv]
  simp only [takeWhile_of_all relChar digits hdr]
  rw [if_neg hd]

/-- Auxiliary: `versionMatch` on a canonical `epoch:version-release`
rendering recovers the three groups. -/
lemma versionMatch_render (e v digits : List Char) (he : e ≠ [])
    (hec : ∀ c ∈ e, ¬(c = ':')) (hv : v ≠ [])
    (hvc : ∀ c ∈ v, ¬(c = '-')) (hd : digits ≠ [])
    (hdr : ∀ c ∈ digits, relChar c = true) :
    versionMatch (e ++ ':' :: (v ++ '-' :: digits)) =
      some (some e, v, some digits) := by
  have hmark := takeWhile_append_marker (fun c => decide (c ≠ ':')) e
    (v ++ '-' :: digits) ':' (fun x hx => by simpa using hec x hx) (by decide)
  simp only [versionMatch, hmark.1, hmark.2, if_neg he,
             versionMain_render v digits hv hvc hd hdr, Option.map_some']

/-- Auxiliary: re-parsing the canonical string form of a well-formed
`Version` recovers its components, with an absent epoch group rendered
(and re-parsed) as `"0"`. -/
lemma versionInit_render (pv : PyVersion) (hv : pv.version ≠ [])
    (hvc : ∀ c ∈ pv.version, ¬(c = '-'))
    (hep : ∀ es, pv.epoch = some es → es ≠ [] ∧ ∀ c ∈ es, ¬(c = ':')) :
    versionInit (versionStr pv) =
      some ⟨some (pv.epoch.getD ['0']), pv.version, pv.release⟩ := by
  have he : pv.epoch.getD ['0'] ≠ [] := by
    cases hpe : pv.epoch with
    | none => simp
    | some es => simpa using (hep es hpe).1
  have hec : ∀ c ∈ pv.epoch.getD ['0'], ¬(c = ':') := by
    cases hpe : pv.epoch with
    | none =>
        intro c hc
        simp only [Option.getD_none, List.mem_singleton] at hc
        subst hc; decide
    | some es =>
        intro c hc
        exact (hep es hpe).2 c (by simpa using hc)
  have hd := natDigits_ne_nil pv.release
  have hdr : ∀ c ∈ natDigits pv.release, relChar c = true := fun c hc => by
    simp [relChar, natDigits_all_digit pv.release c hc]
  have hshape : versionStr pv =
      pv.epoch.getD ['0'] ++ ':' :: (pv.version ++ '-' :: natDigits pv.release) := by
    simp [versionStr]
  have hno : natDigits pv.release ≠ ['o'] := by
    intro hcontra
    have := natDigits_all_digit pv.release 'o' (by rw [hcontra]; simp)
    simp at this
  have hall : (natDigits pv.release).all Char.isDigit = true := by
    rw [List.all_eq_true]
    exact natDigits_all_digit pv.release
  unfold versionInit
  rw [hshape, versionMatch_render (pv.epoch.getD ['0']) pv.version
      (natDigits pv.release) he hec hv hvc hd hdr]
  simp [hno, hall, digitsToNat_natDigits]

/-- C9: for every string accepted by `Version.__init__`, parsing the
canonical rendering `str(Version(s))` succeeds and produces a `Version`
that Python's `==` (the inherited `__cmp__` returning 0) considers equal
to the one parsed from `s`; the re-parsed object carries the identical
version part and release, with an originally-absent epoch group coming
back as the string `"0"`. -/
theorem version_roundtrip (s : List Char) (pv : PyVersion)
    (h : versionInit s = some pv) :
    versionInit (versionStr pv) =
      some ⟨some (pv.epoch.getD ['0']), pv.version, pv.release⟩ ∧
    versionEqB ⟨some (pv.epoch.getD ['0']), pv.version, pv.release⟩ pv
      = true := by
  obtain ⟨⟨h1, h2⟩, h3⟩ := versionInit_inv s pv h
  exact ⟨versionInit_render pv h1 h2 h3,
    by simp [versionEqB, versionCmp, pyStrCmp_self]⟩

/-- C9 witness: the round-trip theorem applied at the concrete string
`"1:2.0-3"`. -/
theorem version_roundtrip_witness :
    versionInit (versionStr ⟨some ['1'], ['2', '.', '0'], 3⟩) =
      some ⟨some ['1'], ['2', '.', '0'], 3⟩ ∧
    versionEqB ⟨some ['1'], ['2', '.', '0'], 3⟩
      ⟨some ['1'], ['2', '.', '0'], 3⟩ = true := by
  have h := version_roundtrip "1:2.0-3".toList
    ⟨some ['1'], ['2', '.', '0'], 3⟩ (by rfl)
  simpa using h

/-- Auxiliary: every event the dispatch loop emits from backend `i` on
carries a backend index of at least `i`. -/
lemma dispatchFrom_index_ge (arguments : List PkgName) :
    ∀ (bs : List (Option BackendCall)) (i : Nat),
      ∀ e ∈ (dispatchFrom arguments i bs).1, i ≤ e.index := by
  intro bs
  induction bs with
  | nil => intro i e he; simp [dispatchFrom] at he
  | cons b t ih =>
      intro i e he
      cases b with
      | none =>
          simp only [dispatchFrom] at he
          rcases List.mem_cons.mp he with rfl | hm
          · simp [DispatchEvent.index]
          · exact le_trans (by omega) (ih (i + 1) e hm)
      | some f =>
          cases hf : f arguments with
          | ok rs =>
              simp only [dispatchFrom, hf] at he
              rcases List.mem_cons.mp he with rfl | hm
              · simp [DispatchEvent.index]
              · rcases List.mem_cons.mp hm with rfl | hm2
                · simp [DispatchEvent.index]
                · exact le_trans (by omega) (ih (i + 1) e hm2)
          | error u =>
              simp only [dispatchFrom, hf] at he
              rcases List.mem_cons.mp he with rfl | hm
              · simp [DispatchEvent.index]
              · rcases List.mem_cons.mp hm with rfl | hm2
                · simp [DispatchEvent.index]
                · exact le_trans (by omega) (ih (i + 1) e hm2)

/-- Auxiliary: the dispatch trace is ordered by backend index. -/
lemma dispatchFrom_pairwise (arguments : List PkgName) :
    ∀ (bs : List (Option BackendCall)) (i : Nat),
      ((dispatchFrom arguments i bs).1).Pairwise
        (fun a b => a.index ≤ b.index) := by
  intro bs
  induction bs with
  | nil => intro i; simp [dispatchFrom]
  | cons b t ih =>
      intro i
      have hge := dispatchFrom_index_ge arguments t (i + 1)
      cases b with
      | none =>
          simp only [dispatchFrom]
          exact List.Pairwise.cons
            (fun e he => by
              simpa [DispatchEvent.index] using
                le_trans (by omega) (hge e he)) (ih (i + 1))
      | some f =>
          cases hf : f arguments with
          | ok rs =>
              simp only [dispatchFrom, hf]
              refine List.Pairwise.cons (fun e he => ?_)
                (List.Pairwise.cons (fun e he => ?_) (ih (i + 1)))
              · rcases List.mem_cons.mp he with rfl | hm
                · simp [DispatchEvent.index]
                · simpa [DispatchEvent.index] using
                    le_trans (by omega) (hge e hm)
              · simpa [DispatchEvent.index] using
                  le_trans (by omega) (hge e he)
          | error u =>
              simp only [dispatchFrom, hf]
              refine List.Pairwise.cons (fun e he => ?_)
                (List.Pairwise.cons (fun e he => ?_) (ih (i + 1)))
              · rcases List.mem_cons.mp he with rfl | hm
                · simp [DispatchEvent.index]
                · simpa [DispatchEvent.index] using
                    le_trans (by omega) (hge e hm)
              · simpa [DispatchEvent.index] using
                  le_trans (by omega) (hge e he)

/-- Auxiliary: every invocation in the trace passes exactly the original
argument list. -/
lemma dispatchFrom_invoked_args (arguments : List PkgName) :
    ∀ (bs : List (Option BackendCall)) (i j : Nat) (a : List PkgName),
      DispatchEvent.invoked j a ∈ (dispatchFrom arguments i bs).1 →
        a = arguments := by
  intro bs
  induction bs with
  | nil => intro i j a ha; simp [dispatchFrom] at ha
  | cons b t ih =>
      intro i j a ha
      cases b with
      | none =>
          simp only [dispatchFrom] at ha
          rcases List.mem_cons.mp ha with hhd | hm
          · exact absurd hhd (by simp)
          · exact ih (i + 1) j a hm
      | some f =>
          cases hf : f arguments with
          | ok rs =>
              simp only [dispatchFrom, hf] at ha
              rcases List.mem_cons.mp ha with hhd | hm
              · exact (DispatchEvent.invoked.inj hhd).2
              · rcases List.mem_cons.mp hm with hhd2 | hm2
                · exact absurd hhd2 (by simp)
                · exact ih (i + 1) j a hm2
          | error u =>
              simp only [dispatchFrom, hf] at ha
              rcases List.mem_cons.mp ha with hhd | hm
              · exact (DispatchEvent.invoked.inj hhd).2
              · rcases List.mem_cons.mp hm with hhd2 | hm2
                · exact absurd hhd2 (by simp)
                · exact ih (i + 1) j a hm2

/-- Auxiliary: a backend whose `get_method` returned no method is logged
with a warning and produces neither an invocation nor a defer. -/
lemma dispatchFrom_skipped (arguments : List PkgName) :
    ∀ (bs : List (Option BackendCall)) (i j : Nat),
      bs[j]? = some none →
        DispatchEvent.warned (i + j) ∈ (dispatchFrom arguments i bs).1 ∧
        DispatchEvent.deferredTo (i + j) ∉ (dispatchFrom arguments i bs).1 ∧
        ∀ a, DispatchEvent.invoked (i + j) a ∉
          (dispatchFrom arguments i bs).1 := by
  intro bs
  induction bs with
  | nil => intro i j hj; simp at hj
  | cons b t ih =>
      intro i j hj
      have hge := dispatchFrom_index_ge arguments t (i + 1)
      cases j with
      | zero =>
          obtain rfl : b = none := by simpa using hj
          simp only [dispatchFrom, Nat.add_zero]
          refine ⟨List.mem_cons_self _ _, ?_, ?_⟩
          · intro hmem
            rcases List.mem_cons.mp hmem with hhd | hm
            · exact absurd hhd (by simp)
            · have := hge _ hm
              simp only [DispatchEvent.index] at this
              omega
          · intro a hmem
            rcases List.mem_cons.mp hmem with hhd | hm
            · exact absurd hhd (by simp)
            · have := hge _ hm
              simp only [DispatchEvent.index] at this
              omega
      | succ j' =>
          have hj' : t[j']? = some none := by simpa using hj
          obtain ⟨ih1, ih2, ih3⟩ := ih (i + 1) j' hj'
          have hidx : i + (j' + 1) = (i + 1) + j' := by omega
          rw [hidx]
          cases b with
          | none =>
              simp only [dispatchFrom]
              refine ⟨List.mem_cons_of_mem _ ih1, ?_, ?_⟩
              · intro hmem
                rcases List.mem_cons.mp hmem with hhd | hm
                · have : i + 1 + j' = i := by
                    simpa using congrArg DispatchEvent.index hhd
                  omega
                · exact ih2 hm
              · intro a hmem
                rcases List.mem_cons.mp hmem with hhd | hm
                · exact absurd hhd (by simp)
                · exact ih3 a hm
          | some f =>
              cases hf : f arguments with
              | ok rs =>
                  simp only [dispatchFrom, hf]
                  refine ⟨List.mem_cons_of_mem _ (List.mem_cons_of_mem _ ih1),
                          ?_, ?_⟩
                  · intro hmem
                    rcases List.mem_cons.mp hmem with hhd | hm
                    · exact absurd hhd (by simp)
                    · rcases List.mem_cons.mp hm with hhd2 | hm2
                      · exact absurd hhd2 (by simp)
                      · exact ih2 hm2
                  · intro a hmem
                    rcases List.mem_cons.mp hmem with hhd | hm
                    · have : i + 1 + j' = i := by
                        simpa using (congrArg DispatchEvent.index hhd)
                      omega
                    · rcases List.mem_cons.mp hm with hhd2 | hm2
                      · exact absurd hhd2 (by simp)
                      · exact ih3 a hm2
              | error u =>
                  simp only [dispatchFrom, hf]
                  refine ⟨List.mem_cons_of_mem _ (List.mem_cons_of_mem _ ih1),
                          ?_, ?_⟩
                  · intro hmem
                    rcases List.mem_cons.mp hmem with hhd | hm
                    · have : i + 1 + j' = i := by
                        simpa using (congrArg DispatchEvent.index hhd)
                      omega
                    · rcases List.mem_cons.mp hm with hhd2 | hm2
                      · have : i + 1 + j' = i := by
                          simpa using (congrArg DispatchEvent.index hhd2)
                        omega
                      · exact ih2 hm2
                  · intro a hmem
                    rcases List.mem_cons.mp hmem with hhd | hm
                    · have : i + 1 + j' = i := by
                        simpa using (congrArg DispatchEvent.index hhd)
                      omega
                    · rcases List.mem_cons.mp hm with hhd2 | hm2
                      · exact absurd hhd2 (by simp)
                      · exact ih3 a hm2

/-- Auxiliary: a backend whose `get_method` returned a method is always
invoked — with the original argument list — regardless of what any
earlier backend did. -/
lemma dispatchFrom_invoked (arguments : List PkgName) :
    ∀ (bs : List (Option BackendCall)) (i j : Nat) (f : BackendCall),
      bs[j]? = some (some f) →
        DispatchEvent.invoked (i + j) arguments ∈
          (dispatchFrom arguments i bs).1 := by
  intro bs
  induction bs with
  | nil => intro i j f hj; simp at hj
  | cons b t ih =>
      intro i j f hj
      cases j with
      | zero =>
          obtain rfl : b = some f := by simpa using hj
          simp only [dispatchFrom, Nat.add_zero]
          cases hf : f arguments with
          | ok rs => exact List.mem_cons_self _ _
          | error u => exact List.mem_cons_self _ _
      | succ j' =>
          have hj' : t[j']? = some (some f) := by simpa using hj
          have hmem := ih (i + 1) j' f hj'
          have hidx : i + (j' + 1) = (i + 1) + j' := by omega
          rw [hidx]
          cases b with
          | none =>
              simp only [dispatchFrom]
              exact List.mem_cons_of_mem _ hmem
          | some f2 =>
              cases hf : f2 arguments with
              | ok rs =>
                  simp only [dispatchFrom, hf]
                  exact List.mem_cons_of_mem _ (List.mem_cons_of_mem _ hmem)
              | error u =>
                  simp only [dispatchFrom, hf]
                  exact List.mem_cons_of_mem _ (List.mem_cons_of_mem _ hmem)

/-- Auxiliary: the flattened result list is exactly the concatenation,
in trace order, of the result batches of the successful invocations. -/
lemma dispatchFrom_results (arguments : List PkgName) :
    ∀ (bs : List (Option BackendCall)) (i : Nat),
      (dispatchFrom arguments i bs).2 =
        (dispatchFrom arguments i bs).1.flatMap
          (fun e => match e with
            | DispatchEvent.collected _ rs => rs
            | _ => []) := by
  intro bs
  induction bs with
  | nil => intro i; simp [dispatchFrom]
  | cons b t ih =>
      intro i
      cases b with
      | none =>
          simp only [dispatchFrom, List.flatMap_cons]
          simp [ih (i + 1)]
      | some f =>
          cases hf : f arguments with
          | ok rs =>
              simp only [dispatchFrom, hf, List.flatMap_cons]
              simp [ih (i + 1)]
          | error u =>
              simp only [dispatchFrom, hf, List.flatMap_cons]
              simp [ih (i + 1)]

/-- C1 counterexample: with two backends that both support the action and
both succeed, the code still invokes the second backend after the first
one has succeeded — the loop has no break, so "once a backend succeeds no
later backend in the chain is invoked" is false. -/
theorem dispatch_invokes_after_success :
    DispatchEvent.collected 0 [1] ∈
      (dispatch [some fun _ => .ok [1], some fun _ => .ok [2]] [['p']]).1 ∧
    DispatchEvent.invoked 1 [['p']] ∈
      (dispatch [some fun _ => .ok [1], some fun _ => .ok [2]] [['p']]).1 := by
  constructor <;> simp [dispatch, dispatchFrom]

/-- C1 (amended): `Borealis.dispatch` consults the backends strictly in
configured priority order; a backend without a method for the action is
skipped with a warning (no invocation, no defer); every backend with a
method is invoked with exactly the original name list (so after a defer
the next backend retries the same names); but a success does not end the
chain — every later capable backend is still invoked for the same
action, and the final result list aggregates the successful batches in
priority order. -/
theorem dispatch_chain (backends : List (Option BackendCall))
    (arguments : List PkgName) :
    ((dispatch backends arguments).1.Pairwise
      fun a b => a.index ≤ b.index) ∧
    (∀ j, backends[j]? = some none →
      DispatchEvent.warned j ∈ (dispatch backends arguments).1 ∧
      DispatchEvent.deferredTo j ∉ (dispatch backends arguments).1 ∧
      ∀ a, DispatchEvent.invoked j a ∉ (dispatch backends arguments).1) ∧
    (∀ j f, backends[j]? = some (some f) →
      DispatchEvent.invoked j arguments ∈ (dispatch backends arguments).1) ∧
    (∀ j a, DispatchEvent.invoked j a ∈ (dispatch backends arguments).1 →
      a = arguments) ∧
    ((dispatch backends arguments).2 =
      (dispatch backends arguments).1.flatMap
        (fun e => match e with
          | DispatchEvent.collected _ rs => rs
          | _ => [])) := by
  refine ⟨dispatchFrom_pairwise arguments backends 0, ?_, ?_, ?_,
          dispatchFrom_results arguments backends 0⟩
  · intro j hj
    have h := dispatchFrom_skipped arguments backends 0 j hj
    simpa using h
  · intro j f hj
    have h := dispatchFrom_invoked arguments backends 0 j f hj
    simpa using h
  · intro j a ha
    exact dispatchFrom_invoked_args arguments backends 0 j a ha

/-- C1 witness: the amended theorem applied at a concrete two-backend
chain — a capable per-name backend followed by an incapable one — and a
one-name argument list. -/
theorem dispatch_chain_witness :
    DispatchEvent.invoked 0 [['p']] ∈
      (dispatch [some (perName fun _ => .ok 1), none] [['p']]).1 ∧
    DispatchEvent.warned 1 ∈
      (dispatch [some (perName fun _ => .ok 1), none] [['p']]).1 :=
  ⟨(dispatch_chain [some (perName fun _ => .ok 1), none] [['p']]).2.2.1 0
      (perName fun _ => .ok 1) (by rfl),
    ((dispatch_chain [some (perName fun _ => .ok 1), none] [['p']]).2.1 1
      (by rfl)).1⟩

/-- C10 counterexample: a `depends` list mixing a `Dependency` object and
a raw string is left untouched by the normalization in
`PackageMetadata.__init__` (the guard only fires when NO element is a
`Dependency`), so the raw string `"b"` survives construction. -/
theorem depends_mixed_list_keeps_raw_strings :
    normalizeDepends [.dep ⟨['a'], some .eq, none⟩, .raw ['b']] =
      [.dep ⟨['a'], some .eq, none⟩, .raw ['b']] ∧
    DepEntry.raw ['b'] ∈
      normalizeDepends [.dep ⟨['a'], some .eq, none⟩, .raw ['b']] := by
  decide

/-- C10 (amended): if no element of `depends` is already a `Dependency`,
every element is wrapped as a `Dependency` (whole string as the name,
default `EQUALS` sign, no target); if at least one element already is a
`Dependency`, the list is left exactly as passed, so a mixed list keeps
its raw strings. -/
theorem depends_normalization (l : List DepEntry) :
    (l.filter DepEntry.isDep = [] →
      ∀ x ∈ normalizeDepends l, x.isDep = true) ∧
    (l.filter DepEntry.isDep ≠ [] → normalizeDepends l = l) := by
  constructor
  · intro h x hx
    unfold normalizeDepends at hx
    rw [if_pos h] at hx
    rcases List.mem_map.mp hx with ⟨y, _, rfl⟩
    cases y <;> rfl
  · intro h
    unfold normalizeDepends
    rw [if_neg h]

/-- C10 witness: the amended theorem applied at the mixed two-element
list from the counterexample's neighbourhood — one `Dependency`, one raw
string — whose filter is non-empty. -/
theorem depends_normalization_witness :
    normalizeDepends [.dep ⟨['a'], some .eq, none⟩, .raw ['c']] =
      [.dep ⟨['a'], some .eq, none⟩, .raw ['c']] :=
  (depends_normalization [.dep ⟨['a'], some .eq, none⟩, .raw ['c']]).2
    (by decide)

end Borealis
